import Mathlib

/-!
Verification of the organization engine of `file_organizer.py`
(`FileOrganizerThread.run`).

The engine is shallowly embedded: Python strings become `List Char`,
the filesystem under the selected source directory becomes an explicit
`FS` state (relative paths of regular files and of directories), the
Qt signals `progress_update` / `preview_signal` / `finished_signal` /
`error_signal` become the `events` list and the single `Outcome` of a
`RunResult`, and the possibility that `os.listdir` or `shutil.move`
raises an exception becomes an `Oracle`.  `run` below is a line-by-line
translation of `FileOrganizerThread.run`.

Python computes each progress value as `int((index + 1) / total * 100)`
with float division; the model uses exact natural division
`(index + 1) * 100 / total`.  The two can differ by one at intermediate
indices (for `total = 100`, `index = 28` the program emits 28 and exact
division gives 29).  The count of emitted events, the 0–100 bounds,
monotonicity, and the final value 100 when `index + 1 = total` are all
insensitive to this gap, since float division by a fixed positive
denominator is monotone and `total / total = 1.0` exactly; theorems
whose statements mention per-event values (through `progOf`) describe
the exact-division model.
-/

namespace FileOrganizer

/-- A Python string (a file or directory name) modelled as its list of
characters. -/
abbrev Name := List Char

/-- A path relative to the source directory, as a list of name segments:
`[f]` is an entry directly in the source directory, `[d, f]` is entry `f`
inside subdirectory `d`. -/
abbrev Path := List Name

/-- The filesystem subtree rooted at the selected source directory:
the paths of the regular files and of the directories it contains.
The order of `files` is the directory enumeration order that
`os.listdir` reports. -/
structure FS where
  files : List Path
  dirs : List Path
  deriving DecidableEq

/-- `os.path.exists` relative to the source directory: a path exists if it
is a file or a directory. -/
def pathExists (fs : FS) (p : Path) : Bool :=
  decide (p ∈ fs.files) || decide (p ∈ fs.dirs)

/-- `[f for f in os.listdir(self.source_dir) if os.path.isfile(os.path.join(self.source_dir, f))]`:
the names of the regular files directly inside the source directory, in
enumeration order. -/
def rootNames (fs : FS) : List Name :=
  fs.files.filterMap (fun p => match p with | [n] => some n | _ => none)

/-- `file.startswith('.')`. -/
def isHidden : Name → Bool
  | [] => false
  | c :: _ => c == '.'

/-- Helper for `splitext`: split a name at its LAST dot, returning
`(before, dot-and-after)`, or `none` when the name has no dot. -/
def breakAtLastDot : Name → Option (Name × Name)
  | [] => none
  | c :: rest =>
    match breakAtLastDot rest with
    | some be => some (c :: be.1, be.2)
    | none => if c = '.' then some ([], c :: rest) else none

/-- `os.path.splitext` on a bare file name (no path separators occur in
names returned by `os.listdir`): split at the last dot, except that the
split is suppressed when every character before the last dot is itself a
dot (CPython skips the leading dots of the basename, so `.bashrc` has no
extension). -/
def splitext (s : Name) : Name × Name :=
  match breakAtLastDot s with
  | some (b, e) => if b.any (fun c => c ≠ '.') then (b, e) else (s, [])
  | none => (s, [])

/-- The `no_extension` sentinel key. -/
def noExtKey : Name := "no_extension".data

/-- `_, ext = os.path.splitext(file); ext = ext.lower()[1:]; if not ext: ext = 'no_extension'`. -/
def extKey (file : Name) : Name :=
  let e := ((splitext file).2.map Char.toLower).drop 1
  if e = [] then noExtKey else e

/-- The collision-resolved candidate name `f"{base}_{counter}{extension}"`. -/
def collName (base extn : Name) (counter : Nat) : Name :=
  base ++ '_' :: (Nat.toDigits 10 counter ++ extn)

/-- The `while os.path.exists(...): counter += 1` search, made total with
explicit fuel: starting from `start`, return the first counter not
`taken`, or `start + fuel` when fuel runs out. -/
def findFree (taken : Nat → Bool) : Nat → Nat → Nat
  | 0, c => c
  | fuel + 1, c => if taken c then findFree taken fuel (c + 1) else c

/-- Fuel for the collision search: one more than the number of entries in
the filesystem, so a free counter is always in range for a well-formed
(duplicate-free) filesystem. -/
def fsFuel (fs : FS) : Nat :=
  fs.files.length + fs.dirs.length + 1

/-- `ext_dir = os.path.join(...); if not os.path.exists(ext_dir): os.makedirs(ext_dir)`. -/
def mkdirStep (fs : FS) (ext : Name) : FS :=
  if pathExists fs [ext] then fs else { fs with dirs := fs.dirs ++ [[ext]] }

/-- The destination chosen for `file` with key `ext`: the candidate
`ext/file`, rewritten to `ext/{base}_{counter}{extension}` with the first
free counter from 1 when the candidate already exists. -/
def resolveDest (fs : FS) (ext file : Name) : Path :=
  if pathExists fs [ext, file] then
    let be := splitext file
    let c := findFree (fun c => pathExists fs [ext, collName be.1 be.2 c]) (fsFuel fs) 1
    [ext, collName be.1 be.2 c]
  else
    [ext, file]

/-- `shutil.move(source_path, dest_path)`: the source path stops existing
and the destination path becomes a file. -/
def moveFile (fs : FS) (src dst : Path) : FS :=
  { fs with files := fs.files.erase src ++ [dst] }

/-- The whole commit-mode filesystem action for one non-hidden file:
ensure the extension directory, resolve the destination, move. -/
def commitStep (fs : FS) (file : Name) : FS :=
  let ext := extKey file
  let fs1 := mkdirStep fs ext
  moveFile fs1 [file] (resolveDest fs1 ext file)

/-- The tally dictionary `organized_files`, as an insertion-ordered
association list. -/
abbrev Tally := List (Name × Nat)

/-- `organized_files[ext] = organized_files.get(ext, 0) + 1`. -/
def bump : Tally → Name → Tally
  | [], k => [(k, 1)]
  | (k', v) :: t, k => if k' = k then (k', v + 1) :: t else (k', v) :: bump t k

/-- The terminal signal of a run: `preview_signal(dict)`,
`finished_signal(dict)` or `error_signal(str)`. -/
inductive Outcome where
  | previewDone (tally : Tally)
  | finished (tally : Tally)
  | error (msg : Name)
  deriving DecidableEq

/-- The success outcome matching the mode. -/
def tallyOut (preview : Bool) (t : Tally) : Outcome :=
  if preview then .previewDone t else .finished t

/-- The tally carried by a success outcome, `none` for an error. -/
def outcomeTally : Outcome → Option Tally
  | .previewDone t => some t
  | .finished t => some t
  | .error _ => none

/-- `f"Error {'previewing' if self.preview_only else 'organizing'} files: {str(e)}"`. -/
def errMsg (preview : Bool) (e : Name) : Name :=
  "Error ".data ++ (if preview then "previewing".data else "organizing".data)
    ++ " files: ".data ++ e

/-- `"No files found in the selected directory."`. -/
def noFilesMsg : Name := "No files found in the selected directory.".data

/-- External nondeterminism: the exceptions the filesystem calls may
raise.  `scanError` is the message of an exception raised by
`os.listdir`; `moveError n` is the message of an exception raised by the
`n`-th call (0-based) to `shutil.move` in this run. -/
structure Oracle where
  scanError : Option Name
  moveError : Nat → Option Name

/-- An oracle under which no filesystem call raises. -/
def cleanOracle : Oracle :=
  { scanError := none, moveError := fun _ => none }

/-- What one run produces: the progress values emitted in order, the
single terminal outcome, and the final filesystem state. -/
structure RunResult where
  events : List Nat
  outcome : Outcome
  fs : FS
  deriving DecidableEq

/-- `progress = int((index + 1) / total_files * 100)` (see the header
note on float versus exact division). -/
def progOf (total index : Nat) : Nat :=
  (index + 1) * 100 / total

/-- The `for index, file in enumerate(files):` loop of
`FileOrganizerThread.run`.  `index` is the enumeration index, `moves`
counts the `shutil.move` calls made so far, `organized` and `events`
accumulate the tally and the emitted progress values. -/
def processLoop (orc : Oracle) (preview : Bool) (total : Nat) :
    List Name → Nat → Nat → FS → Tally → List Nat → RunResult
  | [], _, _, fs, organized, events =>
    { events := events
      outcome := tallyOut preview organized
      fs := fs }
  | file :: rest, index, moves, fs, organized, events =>
    if isHidden file then
      processLoop orc preview total rest (index + 1) moves fs organized events
    else
      let organized := bump organized (extKey file)
      if preview then
        processLoop orc preview total rest (index + 1) moves fs organized
          (events ++ [progOf total index])
      else
        match orc.moveError moves with
        | some e =>
          { events := events
            outcome := .error (errMsg preview e)
            fs := mkdirStep fs (extKey file) }
        | none =>
          processLoop orc preview total rest (index + 1) (moves + 1)
            (commitStep fs file) organized (events ++ [progOf total index])

/-- `FileOrganizerThread.run`: scan, empty check, process loop, with
every exception converted to an `error` outcome. -/
def run (fs : FS) (previewOnly : Bool) (orc : Oracle) : RunResult :=
  match orc.scanError with
  | some e =>
    { events := [], outcome := .error (errMsg previewOnly e), fs := fs }
  | none =>
    let files := rootNames fs
    if files.isEmpty then
      { events := [], outcome := .error noFilesMsg, fs := fs }
    else
      processLoop orc previewOnly files.length files 0 0 fs [] []

/-- The non-hidden entries of a listing together with their enumeration
indices (starting at `start`): the entries the loop body actually
processes. -/
def qualIdx : List Name → Nat → List (Nat × Name)
  | [], _ => []
  | f :: rest, i =>
    if isHidden f then qualIdx rest (i + 1)
    else (i, f) :: qualIdx rest (i + 1)

/-- The key shape every tally key has: the sentinel, or a non-empty
dot-free name fixed by lowercasing. -/
def goodKey (k : Name) : Prop :=
  k = noExtKey ∨ (k ≠ [] ∧ k.map Char.toLower = k ∧ '.' ∉ k)

/-- Concrete directory with files `a.txt`, `b.TXT`, `c.png`: two
distinct normalized keys over three files. -/
def fsTxtPng : FS :=
  { files := [["a.txt".data], ["b.TXT".data], ["c.png".data]], dirs := [] }

/-- Concrete directory with files `a.txt`, `b.png`, `c.txt`. -/
def fsThree : FS :=
  { files := [["a.txt".data], ["b.png".data], ["c.txt".data]], dirs := [] }

/-- Oracle under which the second `shutil.move` call raises `boom`. -/
def orcBoom : Oracle :=
  { scanError := none, moveError := fun n => if n = 1 then some "boom".data else none }

/-! ### Basic lemmas about the helper functions -/

theorem findFree_spec (taken : Nat → Bool) :
    ∀ fuel start, (∃ c, start ≤ c ∧ c < start + fuel ∧ taken c = false) →
      taken (findFree taken fuel start) = false ∧
      start ≤ findFree taken fuel start ∧
      ∀ d, start ≤ d → d < findFree taken fuel start → taken d = true := by
  intro fuel
  induction fuel with
  | zero =>
    intro start h
    obtain ⟨c, h1, h2, _⟩ := h
    omega
  | succ n ih =>
    intro start h
    by_cases ht : taken start = true
    · have hex : ∃ c, start + 1 ≤ c ∧ c < start + 1 + n ∧ taken c = false := by
        obtain ⟨c, h1, h2, h3⟩ := h
        refine ⟨c, ?_, by omega, h3⟩
        rcases Nat.eq_or_lt_of_le h1 with rfl | h1'
        · rw [ht] at h3; cases h3
        · omega
      have hrec := ih (start + 1) hex
      simp only [findFree, if_pos ht]
      refine ⟨hrec.1, by omega, ?_⟩
      intro d hd1 hd2
      rcases Nat.eq_or_lt_of_le hd1 with rfl | hd1'
      · exact ht
      · exact hrec.2.2 d (by omega) hd2
    · simp only [findFree, if_neg ht]
      refine ⟨by simpa using ht, Nat.le_refl _, fun d h1 h2 => by omega⟩

theorem breakAtLastDot_eq_none (s : Name) : breakAtLastDot s = none ↔ '.' ∉ s := by
  induction s with
  | nil => simp [breakAtLastDot]
  | cons c rest ih =>
    cases h : breakAtLastDot rest with
    | some be =>
      have hr : '.' ∈ rest := by
        by_contra hc
        rw [← ih] at hc
        rw [h] at hc
        cases hc
      simp [breakAtLastDot, h, hr]
    | none =>
      have hr : '.' ∉ rest := ih.mp h
      by_cases hc : c = '.'
      · subst hc; simp [breakAtLastDot, h]
      · simp [breakAtLastDot, h, hc, hr, Ne.symm hc]

theorem breakAtLastDot_append (t : Name) (ht : '.' ∉ t) :
    ∀ b : Name, breakAtLastDot (b ++ '.' :: t) = some (b, '.' :: t) := by
  intro b
  induction b with
  | nil =>
    have hnone : breakAtLastDot t = none := (breakAtLastDot_eq_none t).mpr ht
    simp [breakAtLastDot, hnone]
  | cons c b' ih =>
    simp [breakAtLastDot, ih]

theorem breakAtLastDot_some {s b e : Name} (h : breakAtLastDot s = some (b, e)) :
    ∃ t, e = '.' :: t ∧ '.' ∉ t ∧ s = b ++ e := by
  induction s generalizing b e with
  | nil => simp [breakAtLastDot] at h
  | cons c rest ih =>
    simp only [breakAtLastDot] at h
    cases hr : breakAtLastDot rest with
    | some be =>
      rw [hr] at h
      simp only [Option.some.injEq, Prod.mk.injEq] at h
      obtain ⟨hb, he⟩ := h
      obtain ⟨t, ht1, ht2, ht3⟩ := ih (b := be.1) (e := be.2) (by rw [hr])
      subst hb
      exact ⟨t, he ▸ ht1, ht2, by simp [ht3, he]⟩
    | none =>
      rw [hr] at h
      by_cases hc : c = '.'
      · subst hc
        rw [if_pos rfl] at h
        simp only [Option.some.injEq, Prod.mk.injEq] at h
        obtain ⟨hb, he⟩ := h
        exact ⟨rest, he.symm, (breakAtLastDot_eq_none rest).mp hr, by simp [← hb, ← he]⟩
      · rw [if_neg hc] at h
        cases h

theorem isHidden_cons (c : Char) (l : Name) : isHidden (c :: l) = (c == '.') := rfl

theorem splitext_no_dot {s : Name} (h : '.' ∉ s) : splitext s = (s, []) := by
  simp [splitext, (breakAtLastDot_eq_none s).mpr h]

theorem splitext_dotted {b t : Name} (hh : isHidden (b ++ '.' :: t) = false)
    (ht : '.' ∉ t) : splitext (b ++ '.' :: t) = (b, '.' :: t) := by
  have hb : breakAtLastDot (b ++ '.' :: t) = some (b, '.' :: t) :=
    breakAtLastDot_append t ht b
  cases b with
  | nil => simp [isHidden] at hh
  | cons c b' =>
    have hc : ¬ (c = '.') := by
      intro hc
      subst hc
      simp [isHidden] at hh
    simp only [splitext, hb]
    rw [if_pos]
    simp only [List.any_cons, Bool.or_eq_true, decide_eq_true_eq]
    exact Or.inl hc

theorem splitext_snd (s : Name) :
    (splitext s).2 = [] ∨ ∃ t, (splitext s).2 = '.' :: t ∧ '.' ∉ t := by
  cases h : breakAtLastDot s with
  | none => simp [splitext, h]
  | some be =>
    obtain ⟨b, e⟩ := be
    obtain ⟨t, ht1, ht2, _⟩ := breakAtLastDot_some h
    simp only [splitext, h]
    split
    · exact Or.inr ⟨t, ht1, ht2⟩
    · exact Or.inl rfl

theorem toLower_of_range (c : Char) (h1 : 65 ≤ c.toNat) (h2 : c.toNat ≤ 90) :
    c.toLower = Char.ofNat (c.toNat + 32) := by
  simp only [Char.toLower]
  rw [if_pos ⟨h1, h2⟩]

theorem toLower_of_not_range (c : Char) (h : ¬(65 ≤ c.toNat ∧ c.toNat ≤ 90)) :
    c.toLower = c := by
  simp only [Char.toLower]
  rw [if_neg h]

theorem toLower_toLower (c : Char) : c.toLower.toLower = c.toLower := by
  by_cases h : 65 ≤ c.toNat ∧ c.toNat ≤ 90
  · rw [toLower_of_range c h.1 h.2]
    obtain ⟨h1, h2⟩ := h
    have h3 : 97 ≤ c.toNat + 32 := by omega
    have h4 : c.toNat + 32 ≤ 122 := by omega
    generalize c.toNat + 32 = m at h3 h4 ⊢
    interval_cases m <;> decide
  · rw [toLower_of_not_range c h, toLower_of_not_range c h]

theorem toLower_eq_dot {c : Char} (h : c.toLower = '.') : c = '.' := by
  by_cases hc : 65 ≤ c.toNat ∧ c.toNat ≤ 90
  · exfalso
    rw [toLower_of_range c hc.1 hc.2] at h
    obtain ⟨h1, h2⟩ := hc
    have h3 : 97 ≤ c.toNat + 32 := by omega
    have h4 : c.toNat + 32 ≤ 122 := by omega
    generalize c.toNat + 32 = m at h h3 h4
    interval_cases m <;> exact absurd h (by decide)
  · rwa [toLower_of_not_range c hc] at h

theorem toLower_dot : Char.toLower '.' = '.' := by decide

/-! ### The extension key -/

theorem extKey_no_dot {s : Name} (h : '.' ∉ s) : extKey s = noExtKey := by
  simp [extKey, splitext_no_dot h]

theorem extKey_dotted {b t : Name} (hh : isHidden (b ++ '.' :: t) = false)
    (ht : '.' ∉ t) :
    extKey (b ++ '.' :: t) = if t = [] then noExtKey else t.map Char.toLower := by
  have hs := splitext_dotted hh ht
  simp only [extKey, hs, List.map_cons, toLower_dot, List.drop_succ_cons, List.drop_zero]
  by_cases h0 : t = []
  · simp [h0]
  · have : t.map Char.toLower ≠ [] := by simpa using h0
    simp [h0, this]

theorem goodKey_extKey (f : Name) : goodKey (extKey f) := by
  rcases splitext_snd f with h | ⟨t, ht, htd⟩
  · left
    simp [extKey, h]
  · by_cases h0 : t = []
    · left
      simp [extKey, ht, h0, toLower_dot]
    · right
      have hmap : (t.map Char.toLower) ≠ [] := by simpa using h0
      have hkey : extKey f = t.map Char.toLower := by
        simp [extKey, ht, toLower_dot, hmap]
      refine ⟨by rw [hkey]; exact hmap, ?_, ?_⟩
      · rw [hkey, List.map_map]
        apply List.map_congr_left
        intro c _
        exact toLower_toLower c
      · rw [hkey]
        intro hdot
        obtain ⟨c, hc, hcl⟩ := List.mem_map.mp hdot
        exact htd (toLower_eq_dot hcl ▸ hc)

/-! ### The tally -/

theorem bump_sum (t : Tally) (k : Name) :
    ((bump t k).map Prod.snd).sum = (t.map Prod.snd).sum + 1 := by
  induction t with
  | nil => simp [bump]
  | cons kv t' ih =>
    obtain ⟨k', v⟩ := kv
    by_cases h : k' = k
    · simp [bump, h]
      omega
    · simp [bump, h, ih]
      omega

theorem bump_fst_mem (t : Tally) (k a : Name) :
    a ∈ (bump t k).map Prod.fst ↔ a ∈ t.map Prod.fst ∨ a = k := by
  induction t with
  | nil => simp [bump]
  | cons kv t' ih =>
    obtain ⟨k', v⟩ := kv
    by_cases h : k' = k
    · subst h
      simp [bump]
      tauto
    · simp [bump, h, ih]
      tauto

theorem bump_fst_nodup (t : Tally) (k : Name) (h : (t.map Prod.fst).Nodup) :
    ((bump t k).map Prod.fst).Nodup := by
  induction t with
  | nil => simp [bump]
  | cons kv t' ih =>
    obtain ⟨k', v⟩ := kv
    simp only [List.map_cons, List.nodup_cons] at h
    by_cases hk : k' = k
    · subst hk
      simpa [bump] using h
    · simp only [bump, if_neg hk, List.map_cons, List.nodup_cons]
      refine ⟨?_, ih h.2⟩
      rw [bump_fst_mem]
      rintro (hm | rfl)
      · exact h.1 hm
      · exact hk rfl

theorem bump_forall {P : Name × Nat → Prop} (t : Tally) (k : Name)
    (ht : ∀ kv ∈ t, P kv) (hnew : P (k, 1))
    (hsucc : ∀ k' v, P (k', v) → P (k', v + 1)) :
    ∀ kv ∈ bump t k, P kv := by
  induction t with
  | nil =>
    intro kv hkv
    simp only [bump, List.mem_singleton] at hkv
    exact hkv ▸ hnew
  | cons kv0 t' ih =>
    obtain ⟨k', v⟩ := kv0
    intro kv hkv
    by_cases h : k' = k
    · simp only [bump, if_pos h, List.mem_cons] at hkv
      rcases hkv with rfl | hkv
      · exact hsucc k' v (ht (k', v) (by simp))
      · exact ht kv (by simp [hkv])
    · simp only [bump, if_neg h, List.mem_cons] at hkv
      rcases hkv with rfl | hkv
      · exact ht (k', v) (by simp)
      · exact ih (fun kv h => ht kv (by simp [h])) kv hkv

theorem foldBump_sum (ks : List Name) :
    ∀ org : Tally,
      ((ks.foldl bump org).map Prod.snd).sum = (org.map Prod.snd).sum + ks.length := by
  induction ks with
  | nil => intro org; simp
  | cons k ks' ih =>
    intro org
    simp only [List.foldl_cons, ih (bump org k), bump_sum, List.length_cons]
    omega

theorem foldBump_fst_mem (ks : List Name) :
    ∀ (org : Tally) (a : Name),
      a ∈ ((ks.foldl bump org).map Prod.fst) ↔ a ∈ org.map Prod.fst ∨ a ∈ ks := by
  induction ks with
  | nil => intro org a; simp
  | cons k ks' ih =>
    intro org a
    simp only [List.foldl_cons, ih (bump org k), bump_fst_mem, List.mem_cons]
    tauto

theorem foldBump_fst_nodup (ks : List Name) :
    ∀ org : Tally, (org.map Prod.fst).Nodup → ((ks.foldl bump org).map Prod.fst).Nodup := by
  induction ks with
  | nil => intro org h; simpa using h
  | cons k ks' ih =>
    intro org h
    exact ih (bump org k) (bump_fst_nodup org k h)

theorem foldBump_length (ks : List Name) :
    (ks.foldl bump []).length = ks.dedup.length := by
  have hnd : ((ks.foldl bump ([] : Tally)).map Prod.fst).Nodup :=
    foldBump_fst_nodup ks [] (by simp)
  have hmem : ∀ a, a ∈ ((ks.foldl bump ([] : Tally)).map Prod.fst) ↔ a ∈ ks.dedup := by
    intro a
    rw [foldBump_fst_mem, List.mem_dedup]
    simp
  have hperm : ((ks.foldl bump ([] : Tally)).map Prod.fst).Perm ks.dedup := by
    apply List.perm_of_nodup_nodup_toFinset_eq hnd ks.nodup_dedup
    ext a
    simp only [List.mem_toFinset]
    exact hmem a
  calc (ks.foldl bump ([] : Tally)).length
      = ((ks.foldl bump ([] : Tally)).map Prod.fst).length := (List.length_map _ _).symm
    _ = ks.dedup.length := hperm.length_eq

/-! ### The processed entries -/

theorem qualIdx_map_snd (l : List Name) :
    ∀ i, (qualIdx l i).map Prod.snd = l.filter (fun f => !isHidden f) := by
  induction l with
  | nil => intro i; simp [qualIdx]
  | cons f rest ih =>
    intro i
    by_cases hh : isHidden f
    · simp [qualIdx, hh, ih]
    · simp [qualIdx, hh, ih]

theorem processLoop_clean (orc : Oracle) (hm : ∀ n, orc.moveError n = none)
    (preview : Bool) (total : Nat) :
    ∀ (l : List Name) (index moves : Nat) (fs : FS) (org : Tally) (events : List Nat),
      processLoop orc preview total l index moves fs org events =
        { events := events ++ (qualIdx l index).map (fun p => progOf total p.1),
          outcome := tallyOut preview (((qualIdx l index).map (fun p => extKey p.2)).foldl bump org),
          fs := if preview then fs else (qualIdx l index).foldl (fun s p => commitStep s p.2) fs } := by
  intro l
  induction l with
  | nil =>
    intro index moves fs org events
    simp [processLoop, qualIdx]
  | cons f rest ih =>
    intro index moves fs org events
    by_cases hh : isHidden f = true
    · simp only [processLoop, hh, if_true]
      rw [ih]
      simp [qualIdx, hh]
    · by_cases hp : preview = true
      · subst hp
        simp only [processLoop, hh, if_false, if_true, Bool.false_eq_true]
        rw [ih]
        simp [qualIdx, hh, List.append_assoc]
      · have hp' : preview = false := by simpa using hp
        subst hp'
        simp only [processLoop, hh, if_false, Bool.false_eq_true, hm moves]
        rw [ih]
        simp [qualIdx, hh, List.append_assoc]

theorem processLoop_allHidden (orc : Oracle) (preview : Bool) (total : Nat) :
    ∀ (l : List Name), (∀ f ∈ l, isHidden f = true) →
      ∀ (index moves : Nat) (fs : FS) (org : Tally) (events : List Nat),
        processLoop orc preview total l index moves fs org events =
          { events := events, outcome := tallyOut preview org, fs := fs } := by
  intro l
  induction l with
  | nil => intro _ index moves fs org events; simp [processLoop]
  | cons f rest ih =>
    intro hall index moves fs org events
    have hh : isHidden f = true := hall f (by simp)
    simp only [processLoop, hh, if_true]
    exact ih (fun g hg => hall g (by simp [hg])) _ _ _ _ _

theorem processLoop_fail (orc : Oracle) (total : Nat) :
    ∀ (l : List Name) (index moves : Nat) (fs : FS) (org : Tally) (events : List Nat)
      (k : Nat) (e : Name) (p : Nat × Name),
      orc.moveError (moves + k) = some e →
      (∀ j, j < k → orc.moveError (moves + j) = none) →
      (qualIdx l index)[k]? = some p →
      processLoop orc false total l index moves fs org events =
        { events := events ++ ((qualIdx l index).take k).map (fun q => progOf total q.1),
          outcome := .error (errMsg false e),
          fs := mkdirStep (((qualIdx l index).take k).foldl (fun s q => commitStep s q.2) fs)
                  (extKey p.2) } := by
  intro l
  induction l with
  | nil =>
    intro index moves fs org events k e p _ _ hget
    simp [qualIdx] at hget
  | cons f rest ih =>
    intro index moves fs org events k e p hfail hok hget
    by_cases hh : isHidden f = true
    · simp only [qualIdx, hh, if_true] at hget ⊢
      simp only [processLoop, hh, if_true]
      exact ih (index + 1) moves fs org events k e p hfail hok hget
    · cases k with
      | zero =>
        have hf0 : orc.moveError moves = some e := by simpa using hfail
        have hp : p = (index, f) := by
          simp [qualIdx, hh] at hget
          exact hget.symm
        subst hp
        simp only [processLoop, hh, if_false, Bool.false_eq_true, hf0]
        simp [qualIdx, hh]
      | succ k' =>
        have h0 : orc.moveError moves = none := by
          simpa using hok 0 (Nat.succ_pos k')
        have hget' : (qualIdx rest (index + 1))[k']? = some p := by
          simpa [qualIdx, hh] using hget
        have hfail' : orc.moveError (moves + 1 + k') = some e := by
          rw [show moves + 1 + k' = moves + (k' + 1) by omega]
          exact hfail
        have hok' : ∀ j, j < k' → orc.moveError (moves + 1 + j) = none := by
          intro j hj
          rw [show moves + 1 + j = moves + (j + 1) by omega]
          exact hok (j + 1) (by omega)
        simp only [processLoop, hh, if_false, Bool.false_eq_true, h0]
        rw [ih (index + 1) (moves + 1) (commitStep fs f) _ _ k' e p hfail' hok' hget']
        simp [qualIdx, hh, List.append_assoc]

/-! ### Progress-event bounds -/

theorem processLoop_events_bounds (orc : Oracle) (preview : Bool) (total : Nat) :
    ∀ (l : List Name) (index moves : Nat) (fs : FS) (org : Tally) (events : List Nat),
      index + l.length = total →
      List.Chain' (· ≤ ·) events →
      (∀ v ∈ events, v ≤ index * 100 / total) →
      List.Chain' (· ≤ ·) (processLoop orc preview total l index moves fs org events).events ∧
      ∀ v ∈ (processLoop orc preview total l index moves fs org events).events, v ≤ 100 := by
  intro l
  induction l with
  | nil =>
    intro index moves fs org events hlen hchain hbound
    have hto : index = total := by simpa using hlen
    subst hto
    simp only [processLoop]
    refine ⟨hchain, fun v hv => ?_⟩
    rcases Nat.eq_zero_or_pos index with h0 | h0
    · subst h0
      have := hbound v hv
      simp at this
      omega
    · have h1 : index * 100 / index = 100 := Nat.mul_div_cancel_left 100 h0
      have := hbound v hv
      omega
  | cons f rest ih =>
    intro index moves fs org events hlen hchain hbound
    have hlen' : index + 1 + rest.length = total := by
      simp only [List.length_cons] at hlen
      omega
    have htpos : 0 < total := by
      simp only [List.length_cons] at hlen
      omega
    have hmono : index * 100 / total ≤ (index + 1) * 100 / total :=
      Nat.div_le_div_right (Nat.mul_le_mul_right 100 (Nat.le_succ index))
    have hchain' : List.Chain' (· ≤ ·) (events ++ [progOf total index]) := by
      rw [List.chain'_append]
      refine ⟨hchain, List.chain'_singleton _, ?_⟩
      intro x hx y hy
      simp only [List.head?_cons, Option.mem_def, Option.some.injEq] at hy
      subst hy
      have hxe : x ∈ events := List.mem_of_mem_getLast? hx
      exact le_trans (hbound x hxe) hmono
    have hbound' : ∀ v ∈ events ++ [progOf total index], v ≤ (index + 1) * 100 / total := by
      intro v hv
      rcases List.mem_append.mp hv with hv | hv
      · exact le_trans (hbound v hv) hmono
      · simp only [List.mem_singleton] at hv
        subst hv
        exact le_refl _
    have hbound'' : ∀ v ∈ events, v ≤ (index + 1) * 100 / total :=
      fun v hv => le_trans (hbound v hv) hmono
    by_cases hh : isHidden f = true
    · simp only [processLoop, hh, if_true]
      exact ih (index + 1) moves fs org events hlen' hchain hbound''
    · by_cases hp : preview = true
      · subst hp
        simp only [processLoop, hh, if_false, if_true, Bool.false_eq_true]
        exact ih (index + 1) moves fs (bump org (extKey f))
          (events ++ [progOf total index]) hlen' hchain' hbound'
      · have hp' : preview = false := by simpa using hp
        subst hp'
        simp only [processLoop, hh, if_false, Bool.false_eq_true]
        cases hmv : orc.moveError moves with
        | some e =>
          refine ⟨hchain, fun v hv => ?_⟩
          have h1 : total * 100 / total = 100 := Nat.mul_div_cancel_left 100 htpos
          have h2 : index * 100 / total ≤ total * 100 / total :=
            Nat.div_le_div_right (Nat.mul_le_mul_right 100 (by omega))
          have := hbound v hv
          omega
        | none =>
          exact ih (index + 1) (moves + 1) (commitStep fs f) (bump org (extKey f))
            (events ++ [progOf total index]) hlen' hchain' hbound'

theorem processLoop_preview_fs (orc : Oracle) (total : Nat) :
    ∀ (l : List Name) (index moves : Nat) (fs : FS) (org : Tally) (events : List Nat),
      (processLoop orc true total l index moves fs org events).fs = fs := by
  intro l
  induction l with
  | nil => intro index moves fs org events; simp [processLoop]
  | cons f rest ih =>
    intro index moves fs org events
    by_cases hh : isHidden f = true
    · simp only [processLoop, hh, if_true]
      exact ih _ _ _ _ _
    · simp only [processLoop, hh, if_false, if_true, Bool.false_eq_true]
      exact ih _ _ _ _ _

theorem processLoop_outcome_shape (orc : Oracle) (preview : Bool) (total : Nat) :
    ∀ (l : List Name) (index moves : Nat) (fs : FS) (org : Tally) (events : List Nat),
      (∃ t, (processLoop orc preview total l index moves fs org events).outcome
          = tallyOut preview t)
      ∨ (∃ e, (processLoop orc preview total l index moves fs org events).outcome
          = .error (errMsg preview e)) := by
  intro l
  induction l with
  | nil =>
    intro index moves fs org events
    exact Or.inl ⟨org, rfl⟩
  | cons f rest ih =>
    intro index moves fs org events
    by_cases hh : isHidden f = true
    · simp only [processLoop, hh, if_true]
      exact ih _ _ _ _ _
    · by_cases hp : preview = true
      · subst hp
        simp only [processLoop, hh, if_false, if_true, Bool.false_eq_true]
        exact ih _ _ _ _ _
      · have hp' : preview = false := by simpa using hp
        subst hp'
        simp only [processLoop, hh, if_false, Bool.false_eq_true]
        cases hmv : orc.moveError moves with
        | some e => exact Or.inr ⟨e, rfl⟩
        | none => exact ih _ _ _ _ _

theorem processLoop_tally_inv (orc : Oracle) (preview : Bool) (total : Nat) :
    ∀ (l : List Name) (index moves : Nat) (fs : FS) (org : Tally) (events : List Nat)
      (t : Tally),
      (∀ kv ∈ org, 1 ≤ kv.2 ∧ goodKey kv.1) →
      outcomeTally (processLoop orc preview total l index moves fs org events).outcome
        = some t →
      ∀ kv ∈ t, 1 ≤ kv.2 ∧ goodKey kv.1 := by
  intro l
  induction l with
  | nil =>
    intro index moves fs org events t horg ht
    have : t = org := by
      cases hp : preview <;> simp [processLoop, tallyOut, outcomeTally, hp] at ht <;>
        exact ht.symm
    subst this
    exact horg
  | cons f rest ih =>
    intro index moves fs org events t horg ht
    have hbump : ∀ kv ∈ bump org (extKey f), 1 ≤ kv.2 ∧ goodKey kv.1 := by
      apply bump_forall org (extKey f) horg
      · exact ⟨le_refl 1, goodKey_extKey f⟩
      · rintro k' v ⟨h1, h2⟩
        exact ⟨by omega, h2⟩
    by_cases hh : isHidden f = true
    · simp only [processLoop, hh, if_true] at ht
      exact ih _ _ _ _ _ t horg ht
    · by_cases hp : preview = true
      · subst hp
        simp only [processLoop, hh, if_false, if_true, Bool.false_eq_true] at ht
        exact ih _ _ _ _ _ t hbump ht
      · have hp' : preview = false := by simpa using hp
        subst hp'
        simp only [processLoop, hh, if_false, Bool.false_eq_true] at ht
        cases hmv : orc.moveError moves with
        | some e =>
          rw [hmv] at ht
          simp [outcomeTally] at ht
        | none =>
          rw [hmv] at ht
          exact ih _ _ _ _ _ t hbump ht

/-! ## The claims -/

/-- C1, counterexample: a directory whose only regular file is the hidden
file `.a` does NOT produce the empty-directory failure — the run emits a
Tally (the empty one) and zero ProgressEvents, because the emptiness
check in `FileOrganizerThread.run` is made on the listing BEFORE hidden
files are skipped. -/
theorem C1_counterexample :
    outcomeTally (run { files := [[".a".data]], dirs := [] } true cleanOracle).outcome
        = some ([] : Tally)
    ∧ (run { files := [[".a".data]], dirs := [] } true cleanOracle).events = [] := by
  exact ⟨by decide, by decide⟩

/-- C1 (amended): a run over a directory with zero regular files fails
with the empty-directory message and zero ProgressEvents; a run over a
directory whose regular files are all hidden emits zero ProgressEvents
but terminates with an EMPTY Tally, not a Failure. -/
theorem C1_empty_and_hidden (fs : FS) (mode : Bool) (orc : Oracle)
    (hscan : orc.scanError = none) :
    (rootNames fs = [] →
      run fs mode orc = { events := [], outcome := .error noFilesMsg, fs := fs })
    ∧ (rootNames fs ≠ [] → (∀ f ∈ rootNames fs, isHidden f = true) →
      run fs mode orc = { events := [], outcome := tallyOut mode [], fs := fs }) := by
  constructor
  · intro h
    simp [run, hscan, h]
  · intro hne hall
    have hemp : (rootNames fs).isEmpty = false := by
      simpa [List.isEmpty_iff] using hne
    simp only [run, hscan, hemp, Bool.false_eq_true, if_false]
    exact processLoop_allHidden orc mode (rootNames fs).length (rootNames fs) hall 0 0 fs [] []

/-- C1 witness: both amended cases at concrete inputs — the truly empty
directory fails with the message, the hidden-only directory ends with an
empty Tally. -/
theorem C1_witness :
    run { files := [], dirs := [] } true cleanOracle
        = { events := [], outcome := .error noFilesMsg, fs := { files := [], dirs := [] } }
    ∧ run { files := [[".a".data]], dirs := [] } false cleanOracle
        = { events := [], outcome := tallyOut false [],
            fs := { files := [[".a".data]], dirs := [] } } := by
  constructor
  · exact (C1_empty_and_hidden _ true cleanOracle rfl).1 (by decide)
  · exact (C1_empty_and_hidden _ false cleanOracle rfl).2 (by decide) (by decide)

/-- C3: in commit mode, when the candidate `ext/file` already exists the
resolved destination is `ext/{base}_{counter}{extension}` where the
counter is the least value from 1 whose name is free, and `base`,
`extension` are the original file name split at its LAST dot (original
casing and original extension string, not the normalized key).  The
existence hypothesis on a free counter within the search fuel reflects
the unbounded `while` loop of the source, which always finds one on a
finite filesystem. -/
theorem C3_collision_resolution (fs : FS) (ext file : Name)
    (hcol : pathExists fs [ext, file] = true)
    (hfree : ∃ c, 1 ≤ c ∧ c < 1 + fsFuel fs ∧
      pathExists fs [ext, collName (splitext file).1 (splitext file).2 c] = false) :
    ∃ c, resolveDest fs ext file
          = [ext, collName (splitext file).1 (splitext file).2 c]
      ∧ 1 ≤ c
      ∧ pathExists fs [ext, collName (splitext file).1 (splitext file).2 c] = false
      ∧ (∀ d, 1 ≤ d → d < c →
          pathExists fs [ext, collName (splitext file).1 (splitext file).2 d] = true)
      ∧ ∀ b t : Name, file = b ++ '.' :: t → isHidden file = false → '.' ∉ t →
          (splitext file).1 = b ∧ (splitext file).2 = '.' :: t := by
  have hspec := findFree_spec
    (fun c => pathExists fs [ext, collName (splitext file).1 (splitext file).2 c])
    (fsFuel fs) 1 hfree
  refine ⟨findFree
      (fun c => pathExists fs [ext, collName (splitext file).1 (splitext file).2 c])
      (fsFuel fs) 1, ?_, hspec.2.1, hspec.1, hspec.2.2, ?_⟩
  · simp [resolveDest, hcol]
  · intro b t hbt hnh hdot
    subst hbt
    have := splitext_dotted hnh hdot
    exact ⟨by rw [this], by rw [this]⟩

/-- C3 witness: the spec's collision test — `txt/report.txt` pre-exists,
the source holds `report.txt`; the resolved destination is
`txt/report_1.txt`. -/
theorem C3_witness :
    ∃ c,
      resolveDest
          { files := [["report.txt".data], ["txt".data, "report.txt".data]],
            dirs := [["txt".data]] }
          "txt".data "report.txt".data
        = ["txt".data,
            collName (splitext "report.txt".data).1 (splitext "report.txt".data).2 c]
      ∧ 1 ≤ c
      ∧ pathExists
          { files := [["report.txt".data], ["txt".data, "report.txt".data]],
            dirs := [["txt".data]] }
          ["txt".data,
            collName (splitext "report.txt".data).1 (splitext "report.txt".data).2 c]
          = false
      ∧ (∀ d, 1 ≤ d → d < c →
          pathExists
            { files := [["report.txt".data], ["txt".data, "report.txt".data]],
              dirs := [["txt".data]] }
            ["txt".data,
              collName (splitext "report.txt".data).1 (splitext "report.txt".data).2 d]
            = true)
      ∧ ∀ b t : Name, "report.txt".data = b ++ '.' :: t →
          isHidden "report.txt".data = false → '.' ∉ t →
          (splitext "report.txt".data).1 = b ∧ (splitext "report.txt".data).2 = '.' :: t :=
  C3_collision_resolution _ _ _ (by decide) ⟨1, by decide, by decide, by decide⟩

/-- C4: for a non-hidden name with a dot, the key is the lowercased
substring after the last dot, with the sentinel when that substring is
empty; for a name with no dot the key is the sentinel `no_extension`. -/
theorem C4_extension_key :
    (∀ b t : Name, isHidden (b ++ '.' :: t) = false → '.' ∉ t →
      extKey (b ++ '.' :: t) = if t = [] then noExtKey else t.map Char.toLower)
    ∧ (∀ s : Name, '.' ∉ s → extKey s = noExtKey) :=
  ⟨fun _ _ hh ht => extKey_dotted hh ht, fun _ h => extKey_no_dot h⟩

/-- C4 witness: `A.TXT` keys to `txt` (lowercased suffix after the last
dot) and `README` keys to `no_extension`. -/
theorem C4_witness :
    extKey "A.TXT".data = "txt".data ∧ extKey "README".data = noExtKey := by
  constructor
  · have he : ("A.TXT".data : Name) = "A".data ++ '.' :: "TXT".data := by decide
    have h := C4_extension_key.1 "A".data "TXT".data (by decide) (by decide)
    rw [he, h]
    decide
  · exact C4_extension_key.2 "README".data (by decide)

/-- C5: an error-free run over a non-empty listing terminates with a
Tally whose number of entries is the number of distinct normalized
extension keys among the qualifying (non-hidden) files and whose counts
sum to the number of qualifying files. -/
theorem C5_tally_counts (fs : FS) (mode : Bool) (orc : Oracle)
    (hscan : orc.scanError = none) (hmove : ∀ n, orc.moveError n = none)
    (hne : rootNames fs ≠ []) :
    ∃ t, (run fs mode orc).outcome = tallyOut mode t
      ∧ t.length
          = (((rootNames fs).filter (fun f => !isHidden f)).map extKey).dedup.length
      ∧ (t.map Prod.snd).sum
          = ((rootNames fs).filter (fun f => !isHidden f)).length := by
  have hemp : (rootNames fs).isEmpty = false := by
    simpa [List.isEmpty_iff] using hne
  have hrun : run fs mode orc
      = processLoop orc mode (rootNames fs).length (rootNames fs) 0 0 fs [] [] := by
    simp [run, hscan, hemp]
  have hclean := processLoop_clean orc hmove mode (rootNames fs).length
    (rootNames fs) 0 0 fs [] []
  have hks : (qualIdx (rootNames fs) 0).map (fun p => extKey p.2)
      = ((rootNames fs).filter (fun f => !isHidden f)).map extKey := by
    rw [← qualIdx_map_snd (rootNames fs) 0, List.map_map]
    rfl
  refine ⟨((qualIdx (rootNames fs) 0).map (fun p => extKey p.2)).foldl bump [], ?_, ?_, ?_⟩
  · rw [hrun, hclean]
  · rw [hks, foldBump_length]
  · rw [foldBump_sum, hks]
    simp

/-- C5 witness: three files `a.txt`, `b.TXT`, `c.png` give a Tally with
2 entries summing to 3 (keys `txt` and `png`). -/
theorem C5_witness :
    rootNames fsTxtPng ≠ []
    ∧ ∃ t, (run fsTxtPng true cleanOracle).outcome = tallyOut true t
      ∧ t.length
          = (((rootNames fsTxtPng).filter (fun f => !isHidden f)).map extKey).dedup.length
      ∧ (t.map Prod.snd).sum
          = ((rootNames fsTxtPng).filter (fun f => !isHidden f)).length :=
  ⟨by decide, C5_tally_counts fsTxtPng true cleanOracle rfl (fun _ => rfl) (by decide)⟩

/-- C6: in preview mode a run never mutates the filesystem, whatever the
directory contents and whatever exceptions occur: the final state equals
the initial one (no directory created, no file moved). -/
theorem C6_preview_no_mutation (fs : FS) (orc : Oracle) :
    (run fs true orc).fs = fs := by
  cases hscan : orc.scanError with
  | some e => simp [run, hscan]
  | none =>
    by_cases hemp : (rootNames fs).isEmpty = true
    · simp [run, hscan, hemp]
    · have hemp' : (rootNames fs).isEmpty = false := by
        simpa using hemp
      simp only [run, hscan, hemp', Bool.false_eq_true, if_false]
      exact processLoop_preview_fs orc (rootNames fs).length (rootNames fs) 0 0 fs [] []

/-- C7: in commit mode, when the `k`-th move raises (all earlier moves
succeeding) and a `k`-th qualifying entry exists, the run aborts: the
outcome is the organizing-phase Failure (so no Tally is emitted), only
the `k` already-completed entries have emitted progress, and the final
filesystem is exactly the state after the first `k` commit steps plus
the directory created for the failing entry — already-moved files stay
moved, later files are untouched. -/
theorem C7_move_failure_aborts (fs : FS) (orc : Oracle) (k : Nat) (e : Name)
    (p : Nat × Name)
    (hscan : orc.scanError = none)
    (hfail : orc.moveError k = some e)
    (hok : ∀ j, j < k → orc.moveError j = none)
    (hget : (qualIdx (rootNames fs) 0)[k]? = some p) :
    run fs false orc =
      { events := ((qualIdx (rootNames fs) 0).take k).map
          (fun q => progOf (rootNames fs).length q.1),
        outcome := .error (errMsg false e),
        fs := mkdirStep
          (((qualIdx (rootNames fs) 0).take k).foldl (fun s q => commitStep s q.2) fs)
          (extKey p.2) } := by
  have hne : rootNames fs ≠ [] := by
    intro h
    rw [h] at hget
    simp [qualIdx] at hget
  have hemp : (rootNames fs).isEmpty = false := by
    simpa [List.isEmpty_iff] using hne
  have hrun : run fs false orc
      = processLoop orc false (rootNames fs).length (rootNames fs) 0 0 fs [] [] := by
    simp [run, hscan, hemp]
  rw [hrun]
  have hfail0 : orc.moveError (0 + k) = some e := by simpa using hfail
  have hok0 : ∀ j, j < k → orc.moveError (0 + j) = none := by
    intro j hj
    simpa using hok j hj
  have := processLoop_fail orc (rootNames fs).length (rootNames fs) 0 0 fs [] [] k e p
    hfail0 hok0 hget
  rw [this]
  simp

/-- C7 witness: three files `a.txt`, `b.png`, `c.txt`; the second move
raises `boom`.  The run stops with the organizing-phase error after one
progress event (33); `a.txt` is already moved, the `png` directory was
created for the failing file, and `c.txt` is unprocessed. -/
theorem C7_witness :
    run fsThree false orcBoom =
      { events := ((qualIdx (rootNames fsThree) 0).take 1).map
          (fun q => progOf (rootNames fsThree).length q.1),
        outcome := .error (errMsg false "boom".data),
        fs := mkdirStep
          (((qualIdx (rootNames fsThree) 0).take 1).foldl
            (fun s q => commitStep s q.2) fsThree)
          (extKey (1, "b.png".data).2) } :=
  C7_move_failure_aborts fsThree orcBoom 1 "boom".data (1, "b.png".data) rfl
    (by decide)
    (fun j hj => by
      have hj0 : j = 0 := by omega
      subst hj0
      rfl)
    (by decide)

/-- C8: every run terminates with exactly one outcome, and that outcome
is either a Tally of the run's mode, the no-files message, or an error
message carrying the phase in progress (`previewing` in preview mode,
`organizing` in commit mode) followed by the exception text; no modelled
exception (scan or move) escapes. -/
theorem C8_single_outcome_with_phase (fs : FS) (mode : Bool) (orc : Oracle) :
    (∃ t, (run fs mode orc).outcome = tallyOut mode t)
    ∨ (run fs mode orc).outcome = .error noFilesMsg
    ∨ (∃ e, (run fs mode orc).outcome
        = .error ("Error ".data
            ++ (if mode then "previewing".data else "organizing".data)
            ++ " files: ".data ++ e)) := by
  cases hscan : orc.scanError with
  | some e =>
    right; right
    exact ⟨e, by simp [run, hscan, errMsg]⟩
  | none =>
    by_cases hemp : (rootNames fs).isEmpty = true
    · right; left
      simp [run, hscan, hemp]
    · have hemp' : (rootNames fs).isEmpty = false := by simpa using hemp
      have hrun : run fs mode orc
          = processLoop orc mode (rootNames fs).length (rootNames fs) 0 0 fs [] [] := by
        simp [run, hscan, hemp']
      rcases processLoop_outcome_shape orc mode (rootNames fs).length
          (rootNames fs) 0 0 fs [] [] with ⟨t, ht⟩ | ⟨e, he⟩
      · exact Or.inl ⟨t, by rw [hrun]; exact ht⟩
      · right; right
        exact ⟨e, by rw [hrun, he, errMsg]⟩

/-- C9: within any single run — error-free or not, either mode — the
emitted ProgressEvents are non-decreasing and each value is at most 100
(they are naturals, hence at least 0). -/
theorem C9_progress_monotone_bounded (fs : FS) (mode : Bool) (orc : Oracle) :
    List.Chain' (· ≤ ·) (run fs mode orc).events
    ∧ ∀ v ∈ (run fs mode orc).events, v ≤ 100 := by
  cases hscan : orc.scanError with
  | some e =>
    constructor
    · simp [run, hscan]
    · simp [run, hscan]
  | none =>
    by_cases hemp : (rootNames fs).isEmpty = true
    · constructor
      · simp [run, hscan, hemp]
      · simp [run, hscan, hemp]
    · have hemp' : (rootNames fs).isEmpty = false := by simpa using hemp
      have hrun : run fs mode orc
          = processLoop orc mode (rootNames fs).length (rootNames fs) 0 0 fs [] [] := by
        simp [run, hscan, hemp']
      rw [hrun]
      exact processLoop_events_bounds orc mode (rootNames fs).length (rootNames fs)
        0 0 fs [] [] (by simp) (List.chain'_nil) (by simp)

/-- C10: every entry of a Tally emitted by a successful run (either
mode, any oracle) has a count of at least 1, and its key is the sentinel
`no_extension` or a non-empty string that contains no dot and is fixed
by lowercasing. -/
theorem C10_tally_keys (fs : FS) (mode : Bool) (orc : Oracle) (t : Tally)
    (h : outcomeTally (run fs mode orc).outcome = some t) :
    ∀ kv ∈ t, 1 ≤ kv.2 ∧ goodKey kv.1 := by
  cases hscan : orc.scanError with
  | some e =>
    simp [run, hscan, outcomeTally] at h
  | none =>
    by_cases hemp : (rootNames fs).isEmpty = true
    · rw [show run fs mode orc
          = { events := [], outcome := .error noFilesMsg, fs := fs } from by
          simp [run, hscan, hemp]] at h
      simp [outcomeTally] at h
    · have hemp' : (rootNames fs).isEmpty = false := by simpa using hemp
      have hrun : run fs mode orc
          = processLoop orc mode (rootNames fs).length (rootNames fs) 0 0 fs [] [] := by
        simp [run, hscan, hemp']
      rw [hrun] at h
      exact processLoop_tally_inv orc mode (rootNames fs).length (rootNames fs)
        0 0 fs [] [] t (by simp) h

/-- C10 witness: the Tally of a run over the single file `a.txt` is
`[(txt, 1)]`; its entry has count 1 and the key `txt` is a good key. -/
theorem C10_witness :
    (1 : Nat) ≤ 1 ∧ goodKey "txt".data :=
  C10_tally_keys { files := [["a.txt".data]], dirs := [] } true cleanOracle
    [("txt".data, 1)] (by decide) ("txt".data, 1) (by simp)

end FileOrganizer
